import Mathlib

/-!
Verification development for the ugoite repository.

Part I embeds the docsite base-path helper
(`docsite/src/lib/base-path.ts`) and the frontend API proxy header
handling (`frontend/src/routes/api/[...path].ts`) over lists of
characters and association lists of headers.

Part II models the core storage/session/audit/membership engine, which
is specified in the repository documentation (`docs/spec`, the data
model and security design documents) but whose implementation is not
part of the checked sources; those definitions are modelled from the
spec and marked as such.
-/

namespace Ugoite

/-! Part I.a: base-path helper from docsite/src/lib/base-path.ts.
Strings are embedded as lists of characters. -/

/-- Boolean test that the first list is an initial segment of the second,
embedding the string method startsWith used by base-path.ts. -/
def isPre : List Char → List Char → Bool
  | [], _ => true
  | _ :: _, [] => false
  | a :: as, b :: bs => if a = b then isPre as bs else false

/-- Embeds lines 3-5 of base-path.ts: the raw BASE_URL gets a trailing
slash when it lacks one. -/
def normalizeBase (raw : List Char) : List Char :=
  if raw.getLast? = some '/' then raw else raw ++ ['/']

/-- Embeds lines 7-9 of base-path.ts: the normalized base with its
trailing slash removed. -/
def stripTrailingSlash (l : List Char) : List Char :=
  if l.getLast? = some '/' then l.dropLast else l

/-- Character class of the scheme regex tail in base-path.ts line 20. -/
def schemeClass (c : Char) : Bool :=
  c.isAlpha || c.isDigit || c == '+' || c == '.' || c == '-'

/-- Scanner for the regex tail: zero or more scheme-class characters
followed by a colon. -/
def schemeTail : List Char → Bool
  | [] => false
  | c :: rest => if c = ':' then true else if schemeClass c then schemeTail rest else false

/-- Embeds the anchored regex of base-path.ts line 20: an ASCII letter,
then scheme-class characters, then a colon. -/
def matchesScheme : List Char → Bool
  | [] => false
  | c :: rest => c.isAlpha && schemeTail rest

/-- The early-return condition of base-path.ts lines 16-23. -/
def special (href : List Char) : Bool :=
  isPre ['#'] href || isPre ['?'] href || isPre ['/', '/'] href || matchesScheme href

/-- Embeds base-path.ts line 33: drop one leading slash when present. -/
def stripLeadingSlash (l : List Char) : List Char :=
  if isPre ['/'] l = true then l.tail else l

/-- Embeds the function withBasePath of base-path.ts lines 11-41, with
the already-normalized base passed as the first argument. -/
def withBasePath (base href : List Char) : List Char :=
  if href = [] then base
  else if special href = true then href
  else if base ≠ ['/'] ∧ (href = stripTrailingSlash base ∨ isPre (stripTrailingSlash base ++ ['/']) href = true) then href
  else if stripLeadingSlash href = [] then base
  else if base = ['/'] then '/' :: stripLeadingSlash href
  else base ++ stripLeadingSlash href

lemma isPre_append_self (l p : List Char) : isPre l (l ++ p) = true := by
  induction l with
  | nil => rfl
  | cons a as ih => simp [isPre, ih]

lemma isPre_self (l : List Char) : isPre l l = true := by
  have h := isPre_append_self l []
  simpa using h

lemma normalizeBase_getLast (raw : List Char) :
    (normalizeBase raw).getLast? = some '/' := by
  unfold normalizeBase
  split
  · assumption
  · simp

lemma normalizeBase_ne_nil (raw : List Char) : normalizeBase raw ≠ [] := by
  intro h
  have h2 := normalizeBase_getLast raw
  rw [h] at h2
  simp at h2

lemma dropLast_append_getLast : ∀ (l : List Char) (c : Char),
    l.getLast? = some c → l.dropLast ++ [c] = l
  | [], c, h => by simp at h
  | [a], c, h => by
      simp at h
      simp [h]
  | a :: b :: t, c, h => by
      have h2 : (b :: t).getLast? = some c := by
        simpa [List.getLast?_cons_cons] using h
      have ih := dropLast_append_getLast (b :: t) c h2
      simpa [List.dropLast] using congrArg (a :: ·) ih

lemma stripTrailingSlash_append (b : List Char) (hb : b.getLast? = some '/') :
    stripTrailingSlash b ++ ['/'] = b := by
  unfold stripTrailingSlash
  rw [if_pos hb]
  exact dropLast_append_getLast b '/' hb

lemma withBasePath_self (b : List Char) (hb : b.getLast? = some '/') (hne : b ≠ []) :
    withBasePath b b = b := by
  by_cases hs : special b = true
  · unfold withBasePath
    rw [if_neg hne, if_pos hs]
  · by_cases hr : b = ['/']
    · subst hr
      unfold withBasePath
      simp [special, isPre, matchesScheme, stripLeadingSlash]
    · have hcond : b ≠ ['/'] ∧ (b = stripTrailingSlash b ∨ isPre (stripTrailingSlash b ++ ['/']) b = true) := by
        refine ⟨hr, Or.inr ?_⟩
        rw [stripTrailingSlash_append b hb]
        exact isPre_self b
      unfold withBasePath
      rw [if_neg hne, if_neg (by simp [hs]), if_pos hcond]

lemma withBasePath_base_append (b p : List Char) (hb : b.getLast? = some '/')
    (hne : b ≠ []) (hr : b ≠ ['/']) :
    withBasePath b (b ++ p) = b ++ p := by
  have hne2 : b ++ p ≠ [] := by
    intro h
    exact hne (List.append_eq_nil.mp h).1
  by_cases hs : special (b ++ p) = true
  · unfold withBasePath
    rw [if_neg hne2, if_pos hs]
  · have hcond : b ≠ ['/'] ∧ ((b ++ p) = stripTrailingSlash b ∨ isPre (stripTrailingSlash b ++ ['/']) (b ++ p) = true) := by
      refine ⟨hr, Or.inr ?_⟩
      rw [stripTrailingSlash_append b hb]
      exact isPre_append_self b p
    unfold withBasePath
    rw [if_neg hne2, if_neg (by simp [hs]), if_pos hcond]

lemma withBasePath_root_append (p : List Char) (hp : p ≠ [])
    (hp2 : isPre ['/'] p = false) :
    withBasePath ['/'] ('/' :: p) = '/' :: p := by
  have hs : special ('/' :: p) = false := by
    cases p with
    | nil => exact absurd rfl hp
    | cons c t =>
      simp [special, isPre, matchesScheme] at hp2 ⊢
      intro hc
      exact absurd hc hp2
  have hstrip : stripLeadingSlash ('/' :: p) = p := by
    simp [stripLeadingSlash, isPre]
  unfold withBasePath
  rw [if_neg (by simp), if_neg (by simp [hs]), if_neg (by simp), hstrip, if_neg hp, if_pos rfl]

lemma special_nil_false : special [] = false := rfl

lemma isPre_cons_nil (a : Char) (l : List Char) : isPre (a :: l) [] = false := rfl

lemma stripTrailing_normalizeBase_ne_nil (raw : List Char)
    (hr : normalizeBase raw ≠ ['/']) : stripTrailingSlash (normalizeBase raw) ≠ [] := by
  intro h
  have hb := normalizeBase_getLast raw
  have h2 := dropLast_append_getLast (normalizeBase raw) '/' hb
  unfold stripTrailingSlash at h
  rw [if_pos hb] at h
  rw [h] at h2
  exact hr h2.symm

/-- C10: the docsite helper withBasePath is idempotent; hrefs beginning
with a hash, a question mark, a double slash or a URI scheme are
returned unchanged; and hrefs already carrying the configured base path
are not prefixed a second time. -/
theorem c10_withBasePath_idempotent (raw href : List Char) :
    withBasePath (normalizeBase raw) (withBasePath (normalizeBase raw) href)
        = withBasePath (normalizeBase raw) href
    ∧ (special href = true → withBasePath (normalizeBase raw) href = href)
    ∧ (normalizeBase raw ≠ ['/'] → special href = false →
        (href = stripTrailingSlash (normalizeBase raw)
          ∨ isPre (stripTrailingSlash (normalizeBase raw) ++ ['/']) href = true) →
        withBasePath (normalizeBase raw) href = href) := by
  have hb := normalizeBase_getLast raw
  have hne := normalizeBase_ne_nil raw
  refine ⟨?_, ?_, ?_⟩
  · by_cases h1 : href = []
    · have hE : withBasePath (normalizeBase raw) href = normalizeBase raw := by
        unfold withBasePath
        rw [if_pos h1]
      rw [hE]
      exact withBasePath_self _ hb hne
    · by_cases h2 : special href = true
      · have hE : withBasePath (normalizeBase raw) href = href := by
          unfold withBasePath
          rw [if_neg h1, if_pos h2]
        rw [hE]
        exact hE
      · by_cases h3 : normalizeBase raw ≠ ['/'] ∧ (href = stripTrailingSlash (normalizeBase raw) ∨ isPre (stripTrailingSlash (normalizeBase raw) ++ ['/']) href = true)
        · have hE : withBasePath (normalizeBase raw) href = href := by
            unfold withBasePath
            rw [if_neg h1, if_neg (by simp [h2]), if_pos h3]
          rw [hE]
          exact hE
        · by_cases h4 : stripLeadingSlash href = []
          · have hE : withBasePath (normalizeBase raw) href = normalizeBase raw := by
              unfold withBasePath
              rw [if_neg h1, if_neg (by simp [h2]), if_neg h3, if_pos h4]
            rw [hE]
            exact withBasePath_self _ hb hne
          · by_cases h5 : normalizeBase raw = ['/']
            · have hE : withBasePath (normalizeBase raw) href = '/' :: stripLeadingSlash href := by
                unfold withBasePath
                rw [if_neg h1, if_neg (by simp [h2]), if_neg h3, if_neg h4, if_pos h5]
              have hp2 : isPre ['/'] (stripLeadingSlash href) = false := by
                by_cases hsl : isPre ['/'] href = true
                · cases href with
                  | nil => exact absurd rfl h1
                  | cons c t =>
                    have hc : c = '/' := by
                      by_contra hcne
                      simp [isPre] at hsl
                      exact hcne hsl.symm
                    subst hc
                    have h2b : special ('/' :: t) = false := by
                      cases hsp : special ('/' :: t)
                      · rfl
                      · exact absurd hsp h2
                    simp only [special] at h2b
                    have hsplit1 := Bool.or_eq_false_iff.mp h2b
                    have hsplit2 := Bool.or_eq_false_iff.mp hsplit1.1
                    have hdd := hsplit2.2
                    have hstrip : stripLeadingSlash ('/' :: t) = t := by
                      simp [stripLeadingSlash, isPre]
                    rw [hstrip]
                    simpa [isPre] using hdd
                · have hstrip : stripLeadingSlash href = href := by
                    unfold stripLeadingSlash
                    rw [if_neg hsl]
                  rw [hstrip]
                  simpa using hsl
              rw [hE, h5]
              exact withBasePath_root_append _ h4 hp2
            · have hE : withBasePath (normalizeBase raw) href = normalizeBase raw ++ stripLeadingSlash href := by
                unfold withBasePath
                rw [if_neg h1, if_neg (by simp [h2]), if_neg h3, if_neg h4, if_neg h5]
              rw [hE]
              exact withBasePath_base_append _ _ hb hne h5
  · intro h2
    have h1 : href ≠ [] := by
      intro h
      rw [h, special_nil_false] at h2
      exact Bool.false_ne_true h2
    unfold withBasePath
    rw [if_neg h1, if_pos h2]
  · intro hr hs hcarry
    have h1 : href ≠ [] := by
      intro h
      rcases hcarry with hc | hc
      · exact stripTrailing_normalizeBase_ne_nil raw hr (h ▸ hc.symm)
      · rw [h] at hc
        rcases hx : stripTrailingSlash (normalizeBase raw) with _ | ⟨a, l⟩
        · rw [hx] at hc
          simp [isPre] at hc
        · rw [hx] at hc
          rw [List.cons_append] at hc
          rw [isPre_cons_nil] at hc
          exact Bool.false_ne_true hc
    unfold withBasePath
    rw [if_neg h1, if_neg (by simp [hs]), if_pos ⟨hr, hcarry⟩]

/-- Concrete instantiation of the C10 theorem at a base of "/d/" and
hrefs "x", "#a" and "/d/x". -/
theorem c10_withBasePath_idempotent_witness :
    withBasePath (normalizeBase ['/', 'd', '/'])
        (withBasePath (normalizeBase ['/', 'd', '/']) ['x'])
      = withBasePath (normalizeBase ['/', 'd', '/']) ['x']
    ∧ withBasePath (normalizeBase ['/', 'd', '/']) ['#', 'a'] = ['#', 'a']
    ∧ withBasePath (normalizeBase ['/', 'd', '/']) ['/', 'd', '/', 'x'] = ['/', 'd', '/', 'x'] :=
  ⟨(c10_withBasePath_idempotent ['/', 'd', '/'] ['x']).1,
   (c10_withBasePath_idempotent ['/', 'd', '/'] ['#', 'a']).2.1 (by decide),
   (c10_withBasePath_idempotent ['/', 'd', '/'] ['/', 'd', '/', 'x']).2.2
     (by decide) (by decide) (Or.inr (by decide))⟩

/-! Part I.b: request-header handling of the frontend API proxy,
frontend/src/routes/api/[...path].ts. A header map is an association
list of name/value pairs; the set method of the fetch Headers class
lowercases its key and replaces an existing entry in place, which hset
mirrors for keys that are already lowercase. -/

/-- The fixed request-header allowlist of the proxy (lines 19-34). -/
def requestHeaderAllowlist : List String :=
  ["accept", "accept-language", "authorization", "content-type", "if-match",
   "if-none-match", "prefer", "x-request-id", "x-correlation-id", "x-trace-id",
   "x-b3-traceid", "x-b3-spanid", "traceparent", "tracestate"]

/-- Whether the map has an entry with exactly the given name. -/
def hhas : List (String × String) → String → Bool
  | [], _ => false
  | p :: t, n => if p.1 = n then true else hhas t n

/-- ASCII lowercasing of a header name, embedding the toLowerCase calls
of the proxy; defined over the character data so that it evaluates by
kernel reduction. -/
def lowerStr (s : String) : String := ⟨s.data.map Char.toLower⟩

/-- Whether the incoming request carries a header with the given
lowercase name under case-insensitive comparison. -/
def hhasCI : List (String × String) → String → Bool
  | [], _ => false
  | p :: t, n => if (lowerStr p.1) = n then true else hhasCI t n

/-- Value lookup by exact name, first match. -/
def hget : List (String × String) → String → Option String
  | [], _ => none
  | p :: t, n => if p.1 = n then some p.2 else hget t n

/-- Embeds Headers.set for an already-lowercase name: replace the value
of every entry with that name, or append a new entry when absent. -/
def hset (h : List (String × String)) (n v : String) : List (String × String) :=
  if hhas h n = true then h.map (fun p => if p.1 = n then (n, v) else p)
  else h ++ [(n, v)]

/-- One step of the filtering loop of filterRequestHeaders (lines
46-51): keep an allowlisted name lowercased via Headers.set, drop
everything else. -/
def filterStep (acc : List (String × String)) (p : String × String) : List (String × String) :=
  if requestHeaderAllowlist.contains (lowerStr p.1) = true then hset acc (lowerStr p.1) p.2
  else acc

/-- Embeds filterRequestHeaders (lines 44-53): fold the filtering step
over the incoming entries starting from an empty header map. -/
def filterRequestHeaders (req : List (String × String)) : List (String × String) :=
  req.foldl filterStep []

/-- Embeds the first block of applyProxyCredentials (lines 75-80):
inject the configured bearer token, with the Bearer prefix, when the
map lacks an authorization entry. -/
def injectBearer (bearer : Option String)
    (h : List (String × String)) : List (String × String) :=
  if hhas h ("authorization") = true then h else
    match bearer with
    | some t => hset h ("authorization") ("Bearer " ++ t)
    | none => h

/-- Embeds the second block of applyProxyCredentials (lines 81-86):
inject the configured API key when the map lacks an x-api-key entry. -/
def injectApiKey (apiKey : Option String)
    (h : List (String × String)) : List (String × String) :=
  if hhas h ("x-api-key") = true then h else
    match apiKey with
    | some k => hset h ("x-api-key") k
    | none => h

/-- Embeds applyProxyCredentials (lines 74-87): the bearer-token block
followed by the API-key block. -/
def applyProxyCredentials (bearer apiKey : Option String)
    (h : List (String × String)) : List (String × String) :=
  injectApiKey apiKey (injectBearer bearer h)

/-- The header set forwarded upstream by proxyRequest (lines 108-148):
filtering followed by credential injection. -/
def forwardedHeaders (bearer apiKey : Option String)
    (req : List (String × String)) : List (String × String) :=
  applyProxyCredentials bearer apiKey (filterRequestHeaders req)

lemma mem_hset (h : List (String × String)) (n v : String) (q : String × String)
    (hq : q ∈ hset h n v) : q ∈ h ∨ q = (n, v) := by
  unfold hset at hq
  split at hq
  · rcases List.mem_map.mp hq with ⟨p, hp, he⟩
    by_cases hpn : p.1 = n
    · right
      rw [← he, if_pos hpn]
    · left
      rw [← he, if_neg hpn]
      exact hp
  · rcases List.mem_append.mp hq with hq2 | hq2
    · exact Or.inl hq2
    · right
      simpa using hq2

lemma hhas_map_set (t : List (String × String)) (n v m : String) :
    hhas (t.map (fun p => if p.1 = n then (n, v) else p)) m = hhas t m := by
  induction t with
  | nil => rfl
  | cons a t ih =>
    by_cases han : a.1 = n
    · simp only [List.map_cons, if_pos han]
      unfold hhas
      by_cases hnm : n = m
      · rw [if_pos hnm, if_pos (han.trans hnm)]
      · rw [if_neg hnm, if_neg (fun h2 : a.1 = m => hnm (han.symm.trans h2)), ih]
    · simp only [List.map_cons, if_neg han]
      unfold hhas
      by_cases ham : a.1 = m
      · rw [if_pos ham, if_pos ham]
      · rw [if_neg ham, if_neg ham, ih]

lemma hhas_append_one_self (t : List (String × String)) (n v : String) :
    hhas (t ++ [(n, v)]) n = true := by
  induction t with
  | nil => simp [hhas]
  | cons a t ih =>
    simp only [List.cons_append]
    unfold hhas
    by_cases ham : a.1 = n
    · rw [if_pos ham]
    · rw [if_neg ham]
      exact ih

lemma hhas_append_one_other (t : List (String × String)) (n v m : String)
    (hmn : m ≠ n) : hhas (t ++ [(n, v)]) m = hhas t m := by
  induction t with
  | nil =>
    show hhas [(n, v)] m = false
    unfold hhas
    rw [if_neg (fun h : n = m => hmn h.symm)]
    rfl
  | cons a t ih =>
    simp only [List.cons_append]
    unfold hhas
    by_cases ham : a.1 = m
    · rw [if_pos ham, if_pos ham]
    · rw [if_neg ham, if_neg ham, ih]

lemma hget_map_set_self (t : List (String × String)) (n v : String)
    (ht : hhas t n = true) : hget (t.map (fun p => if p.1 = n then (n, v) else p)) n = some v := by
  induction t with
  | nil => simp [hhas] at ht
  | cons a t ih =>
    by_cases han : a.1 = n
    · simp only [List.map_cons, if_pos han]
      unfold hget
      rw [if_pos rfl]
    · simp only [List.map_cons, if_neg han]
      unfold hget
      rw [if_neg han]
      refine ih ?_
      unfold hhas at ht
      rwa [if_neg han] at ht

lemma hget_map_set_other (t : List (String × String)) (n v m : String)
    (hmn : m ≠ n) : hget (t.map (fun p => if p.1 = n then (n, v) else p)) m = hget t m := by
  induction t with
  | nil => rfl
  | cons a t ih =>
    by_cases han : a.1 = n
    · simp only [List.map_cons, if_pos han]
      unfold hget
      rw [if_neg (fun h : n = m => hmn h.symm), if_neg (fun h : a.1 = m => hmn (h.symm.trans han)), ih]
    · simp only [List.map_cons, if_neg han]
      unfold hget
      by_cases ham : a.1 = m
      · rw [if_pos ham, if_pos ham]
      · rw [if_neg ham, if_neg ham, ih]

lemma hget_append_self (t : List (String × String)) (n v : String)
    (ht : hhas t n = false) : hget (t ++ [(n, v)]) n = some v := by
  induction t with
  | nil => simp [hget]
  | cons a t ih =>
    have han : ¬ a.1 = n := by
      unfold hhas at ht
      intro h
      rw [if_pos h] at ht
      exact Bool.true_eq_false.mp ht
    have ht2 : hhas t n = false := by
      unfold hhas at ht
      rwa [if_neg han] at ht
    simp only [List.cons_append]
    unfold hget
    rw [if_neg han]
    exact ih ht2

lemma hget_append_other (t : List (String × String)) (n v m : String)
    (hmn : m ≠ n) : hget (t ++ [(n, v)]) m = hget t m := by
  induction t with
  | nil =>
    show hget [(n, v)] m = none
    unfold hget
    rw [if_neg (fun h : n = m => hmn h.symm)]
    rfl
  | cons a t ih =>
    simp only [List.cons_append]
    unfold hget
    by_cases ham : a.1 = m
    · rw [if_pos ham, if_pos ham]
    · rw [if_neg ham, if_neg ham, ih]

lemma hhas_hset_self (h : List (String × String)) (n v : String) :
    hhas (hset h n v) n = true := by
  unfold hset
  split
  · rename_i hpos
    rw [hhas_map_set]
    exact hpos
  · exact hhas_append_one_self h n v

lemma hhas_hset_other (h : List (String × String)) (n m v : String) (hmn : m ≠ n) :
    hhas (hset h n v) m = hhas h m := by
  unfold hset
  split
  · exact hhas_map_set h n v m
  · exact hhas_append_one_other h n v m hmn

lemma hget_hset_self (h : List (String × String)) (n v : String) :
    hget (hset h n v) n = some v := by
  unfold hset
  split
  · rename_i hpos
    exact hget_map_set_self h n v hpos
  · rename_i hneg
    refine hget_append_self h n v ?_
    cases hx : hhas h n
    · rfl
    · exact absurd hx hneg

lemma hget_hset_other (h : List (String × String)) (n m v : String) (hmn : m ≠ n) :
    hget (hset h n v) m = hget h m := by
  unfold hset
  split
  · exact hget_map_set_other h n v m hmn
  · exact hget_append_other h n v m hmn

lemma hget_eq_none (h : List (String × String)) (n : String)
    (hh : hhas h n = false) : hget h n = none := by
  induction h with
  | nil => rfl
  | cons a t ih =>
    have han : ¬ a.1 = n := by
      unfold hhas at hh
      intro h2
      rw [if_pos h2] at hh
      exact Bool.true_eq_false.mp hh
    have ht2 : hhas t n = false := by
      unfold hhas at hh
      rwa [if_neg han] at hh
    unfold hget
    rw [if_neg han]
    exact ih ht2

lemma hhas_exists (l : List (String × String)) (n : String)
    (hh : hhas l n = true) : ∃ v, (n, v) ∈ l := by
  induction l with
  | nil => simp [hhas] at hh
  | cons a t ih =>
    by_cases han : a.1 = n
    · refine ⟨a.2, ?_⟩
      have h2 : a = (n, a.2) := by
        rw [← han]
      rw [← h2]
      exact List.mem_cons_self a t
    · unfold hhas at hh
      rw [if_neg han] at hh
      rcases ih hh with ⟨v, hv⟩
      exact ⟨v, List.mem_cons_of_mem a hv⟩

lemma hget_mem (l : List (String × String)) (n : String)
    (hh : hhas l n = true) : ∃ v, hget l n = some v ∧ (n, v) ∈ l := by
  induction l with
  | nil => simp [hhas] at hh
  | cons a t ih =>
    by_cases han : a.1 = n
    · refine ⟨a.2, ?_, ?_⟩
      · unfold hget
        rw [if_pos han]
      · have : a = (n, a.2) := by
          rw [← han]
        rw [← this]
        exact List.mem_cons_self a t
    · unfold hhas at hh
      rw [if_neg han] at hh
      rcases ih hh with ⟨v, hv1, hv2⟩
      refine ⟨v, ?_, List.mem_cons_of_mem a hv2⟩
      unfold hget
      rw [if_neg han]
      exact hv1

lemma hhasCI_of_mem (req : List (String × String)) (p : String × String)
    (n : String) (hp : p ∈ req) (hn : (lowerStr p.1) = n) : hhasCI req n = true := by
  induction req with
  | nil => simp at hp
  | cons a t ih =>
    rcases List.mem_cons.mp hp with he | ht
    · unfold hhasCI
      rw [he] at hn
      rw [if_pos hn]
    · unfold hhasCI
      by_cases ha : (lowerStr a.1) = n
      · rw [if_pos ha]
      · rw [if_neg ha]
        exact ih ht

lemma mem_filterFold : ∀ (req acc : List (String × String)) (q : String × String),
    q ∈ req.foldl filterStep acc →
    q ∈ acc ∨ (requestHeaderAllowlist.contains q.1 = true
      ∧ ∃ p, p ∈ req ∧ q = ((lowerStr p.1), p.2))
  | [], acc, q, hq => Or.inl hq
  | p :: rest, acc, q, hq => by
    have ih := mem_filterFold rest (filterStep acc p) q hq
    rcases ih with hin | ⟨hc, pr, hpr, he⟩
    · unfold filterStep at hin
      split at hin
      · rename_i hallow
        rcases mem_hset acc (lowerStr p.1) p.2 q hin with h2 | h2
        · exact Or.inl h2
        · refine Or.inr ⟨?_, p, List.mem_cons_self p rest, h2⟩
          rw [h2]
          exact hallow
      · exact Or.inl hin
    · exact Or.inr ⟨hc, pr, List.mem_cons_of_mem p hpr, he⟩

lemma hhas_filterFold_mono : ∀ (req acc : List (String × String)) (n : String),
    hhas acc n = true → hhas (req.foldl filterStep acc) n = true
  | [], acc, n, h => h
  | p :: rest, acc, n, h => by
    refine hhas_filterFold_mono rest (filterStep acc p) n ?_
    unfold filterStep
    split
    · by_cases hn : (lowerStr p.1) = n
      · rw [hn]
        exact hhas_hset_self acc n p.2
      · rw [hhas_hset_other acc (lowerStr p.1) n p.2 (fun h2 => hn h2.symm)]
        exact h
    · exact h

lemma hhas_filterFold_of_CI : ∀ (req acc : List (String × String)) (n : String),
    requestHeaderAllowlist.contains n = true → hhasCI req n = true →
    hhas (req.foldl filterStep acc) n = true
  | [], _, n, _, hci => by simp [hhasCI] at hci
  | p :: rest, acc, n, hallow, hci => by
    by_cases hn : (lowerStr p.1) = n
    · refine hhas_filterFold_mono rest (filterStep acc p) n ?_
      unfold filterStep
      rw [hn, if_pos hallow]
      exact hhas_hset_self acc n p.2
    · unfold hhasCI at hci
      rw [if_neg hn] at hci
      exact hhas_filterFold_of_CI rest (filterStep acc p) n hallow hci

lemma hhas_filter_of_notCI (req : List (String × String)) (n : String)
    (hci : hhasCI req n = false) : hhas (filterRequestHeaders req) n = false := by
  cases hx : hhas (filterRequestHeaders req) n
  · rfl
  · exfalso
    rcases hhas_exists _ n hx with ⟨v, hv⟩
    rcases mem_filterFold req [] (n, v) hv with h2 | ⟨_, p, hp, he⟩
    · simp at h2
    · have : (lowerStr p.1) = n := by
        have := congrArg Prod.fst he
        simpa using this.symm
      rw [hhasCI_of_mem req p n hp this] at hci
      exact Bool.true_eq_false.mp hci

lemma hhas_filter_apikey (req : List (String × String)) :
    hhas (filterRequestHeaders req) ("x-api-key") = false := by
  cases hx : hhas (filterRequestHeaders req) ("x-api-key")
  · rfl
  · exfalso
    rcases hhas_exists _ _ hx with ⟨v, hv⟩
    rcases mem_filterFold req [] (("x-api-key"), v) hv with h2 | ⟨hc, _, _, _⟩
    · simp at h2
    · have hfalse : requestHeaderAllowlist.contains ("x-api-key") = false := by decide
      rw [hc] at hfalse
      exact Bool.true_eq_false.mp hfalse

lemma injectBearer_has (bearer : Option String) (h : List (String × String))
    (hh : hhas h ("authorization") = true) : injectBearer bearer h = h := by
  unfold injectBearer
  rw [if_pos hh]

lemma injectBearer_none (h : List (String × String)) : injectBearer none h = h := by
  unfold injectBearer
  split <;> rfl

lemma injectBearer_absent (t : String) (h : List (String × String))
    (hh : hhas h ("authorization") = false) :
    injectBearer (some t) h = hset h ("authorization") ("Bearer " ++ t) := by
  unfold injectBearer
  rw [if_neg (by simp [hh])]

lemma injectApiKey_none (h : List (String × String)) : injectApiKey none h = h := by
  unfold injectApiKey
  split <;> rfl

lemma injectApiKey_absent (k : String) (h : List (String × String))
    (hh : hhas h ("x-api-key") = false) :
    injectApiKey (some k) h = hset h ("x-api-key") k := by
  unfold injectApiKey
  rw [if_neg (by simp [hh])]

lemma injectApiKey_auth (apiKey : Option String) (h : List (String × String)) :
    hget (injectApiKey apiKey h) ("authorization") = hget h ("authorization") := by
  unfold injectApiKey
  split
  · rfl
  · cases apiKey with
    | none => rfl
    | some k => exact hget_hset_other h ("x-api-key") ("authorization") k (by decide)

lemma hhas_injectBearer_apikey (bearer : Option String) (h : List (String × String)) :
    hhas (injectBearer bearer h) ("x-api-key") = hhas h ("x-api-key") := by
  unfold injectBearer
  split
  · rfl
  · cases bearer with
    | none => rfl
    | some t => exact hhas_hset_other h ("authorization") ("x-api-key") ("Bearer " ++ t) (by decide)

lemma mem_injectBearer (bearer : Option String) (h : List (String × String))
    (q : String × String) (hq : q ∈ injectBearer bearer h) :
    q ∈ h ∨ q.1 = ("authorization") := by
  unfold injectBearer at hq
  split at hq
  · exact Or.inl hq
  · cases bearer with
    | none => exact Or.inl hq
    | some t =>
      rcases mem_hset h ("authorization") ("Bearer " ++ t) q hq with h2 | h2
      · exact Or.inl h2
      · right
        rw [h2]

lemma mem_injectApiKey (apiKey : Option String) (h : List (String × String))
    (q : String × String) (hq : q ∈ injectApiKey apiKey h) :
    q ∈ h ∨ q.1 = ("x-api-key") := by
  unfold injectApiKey at hq
  split at hq
  · exact Or.inl hq
  · cases apiKey with
    | none => exact Or.inl hq
    | some k =>
      rcases mem_hset h ("x-api-key") k q hq with h2 | h2
      · exact Or.inl h2
      · right
        rw [h2]

/-- C9 (amended): every header name forwarded upstream by the proxy is
either on the fixed request-header allowlist or is x-api-key; the
bearer token is injected only when the incoming request carries no
authorization header, a caller-supplied authorization value being
forwarded unchanged; and, because x-api-key is not on the allowlist, a
caller-supplied x-api-key header is never forwarded: the configured API
key is injected whenever it is set, and no x-api-key header is
forwarded when it is not. -/
theorem c9_proxy_header_policy (bearer apiKey : Option String)
    (req : List (String × String)) :
    (∀ q, q ∈ forwardedHeaders bearer apiKey req →
        requestHeaderAllowlist.contains q.1 = true ∨ q.1 = ("x-api-key"))
    ∧ (hhasCI req ("authorization") = true →
        ∃ p, p ∈ req ∧ (lowerStr p.1) = ("authorization")
          ∧ hget (forwardedHeaders bearer apiKey req) ("authorization") = some p.2)
    ∧ (hhasCI req ("authorization") = false →
        hget (forwardedHeaders bearer apiKey req) ("authorization")
          = Option.map (fun t => ("Bearer ") ++ t) bearer)
    ∧ (∀ k, apiKey = some k →
        hget (forwardedHeaders bearer apiKey req) ("x-api-key") = some k)
    ∧ (apiKey = none →
        hget (forwardedHeaders bearer apiKey req) ("x-api-key") = none) := by
  have hxfil : hhas (filterRequestHeaders req) ("x-api-key") = false :=
    hhas_filter_apikey req
  refine ⟨?_, ?_, ?_, ?_, ?_⟩
  · intro q hq
    unfold forwardedHeaders applyProxyCredentials at hq
    rcases mem_injectApiKey apiKey _ q hq with hq1 | hx
    · rcases mem_injectBearer bearer _ q hq1 with hq2 | hauth
      · unfold filterRequestHeaders at hq2
        rcases mem_filterFold req [] q hq2 with h2 | ⟨hc, _, _, _⟩
        · simp at h2
        · exact Or.inl hc
      · left
        rw [hauth]
        decide
    · exact Or.inr hx
  · intro hci
    have hfil : hhas (filterRequestHeaders req) ("authorization") = true :=
      hhas_filterFold_of_CI req [] ("authorization") (by decide) hci
    rcases hget_mem _ _ hfil with ⟨v, hv1, hv2⟩
    rcases mem_filterFold req [] (("authorization"), v) hv2 with h2 | ⟨_, p, hp, he⟩
    · simp at h2
    · have hp1 : (lowerStr p.1) = ("authorization") := by
        have := congrArg Prod.fst he
        simpa using this.symm
      have hp2 : v = p.2 := by
        have := congrArg Prod.snd he
        simpa using this
      refine ⟨p, hp, hp1, ?_⟩
      unfold forwardedHeaders applyProxyCredentials
      rw [injectBearer_has bearer _ hfil, injectApiKey_auth, hv1, hp2]
  · intro hci
    have hfil : hhas (filterRequestHeaders req) ("authorization") = false :=
      hhas_filter_of_notCI req ("authorization") hci
    unfold forwardedHeaders applyProxyCredentials
    cases bearer with
    | none =>
      rw [injectBearer_none, injectApiKey_auth]
      simp [hget_eq_none _ _ hfil]
    | some t =>
      rw [injectBearer_absent t _ hfil, injectApiKey_auth, hget_hset_self]
      rfl
  · intro k hk
    subst hk
    unfold forwardedHeaders applyProxyCredentials
    have hx1 : hhas (injectBearer bearer (filterRequestHeaders req)) ("x-api-key") = false := by
      rw [hhas_injectBearer_apikey]
      exact hxfil
    rw [injectApiKey_absent k _ hx1, hget_hset_self]
  · intro hk
    subst hk
    unfold forwardedHeaders applyProxyCredentials
    rw [injectApiKey_none]
    refine hget_eq_none _ _ ?_
    rw [hhas_injectBearer_apikey]
    exact hxfil

/-- Concrete instantiation of the amended C9 theorem: a request with an
accept header and an authorization header, a configured bearer token
and a configured API key. -/
theorem c9_proxy_header_policy_witness :
    (∃ p, p ∈ [(("Authorization" : String), ("Bearer caller" : String))]
      ∧ (lowerStr p.1) = ("authorization")
      ∧ hget (forwardedHeaders (some ("envtoken")) (some ("envkey"))
          [(("Authorization" : String), ("Bearer caller" : String))]) ("authorization")
          = some p.2)
    ∧ hget (forwardedHeaders (some ("envtoken")) (some ("envkey"))
        [(("Authorization" : String), ("Bearer caller" : String))]) ("x-api-key")
        = some ("envkey") :=
  ⟨(c9_proxy_header_policy (some ("envtoken")) (some ("envkey"))
      [(("Authorization" : String), ("Bearer caller" : String))]).2.1 (by decide),
   (c9_proxy_header_policy (some ("envtoken")) (some ("envkey"))
      [(("Authorization" : String), ("Bearer caller" : String))]).2.2.2.1 ("envkey") rfl⟩

/-- C9 counterexample: the incoming request carries an x-api-key header
with a caller credential and the proxy is configured with an API key;
the forwarded header set drops the caller credential and carries the
configured key instead, so the proxy does not inject the API key only
when the incoming request lacks one, and it does replace a
caller-supplied credential. -/
theorem c9_counterexample :
    hhasCI [(("x-api-key" : String), ("caller-secret" : String))] ("x-api-key") = true
    ∧ forwardedHeaders none (some ("proxy-key"))
        [(("x-api-key" : String), ("caller-secret" : String))]
        = [(("x-api-key" : String), ("proxy-key" : String))]
    ∧ hget (forwardedHeaders none (some ("proxy-key"))
          [(("x-api-key" : String), ("caller-secret" : String))]) ("x-api-key")
        ≠ some ("caller-secret") := by
  refine ⟨by decide, by decide, by decide⟩

/-! Part II: model of the core engine. The implementation of the table
store, schema registry, query/session engine, materialized-view
synchronizer, membership engine and audit ledger is not among the
checked sources; only its documentation, interface declarations and
end-to-end tests are. The definitions below are therefore modelled from
the specification documents and marked as such. -/

/-! Part II.a: table store (data-model document, Versioning section). -/

/-- Modelled from the spec: immutable revision record of the table
store; the implementation behind append_revision is not in the checked
sources. Field values are an association list from field name to
value. -/
structure Revision where
  rev_id : Nat
  parent_revision_id : Option Nat
  field_values : List (String × String)
deriving DecidableEq, Repr

/-- Modelled from the spec: a row of the current-state projection
table, holding the head revision pointer and the projected field
values. -/
structure CurrentRow where
  entry_id : String
  head_revision_id : Nat
  field_values : List (String × String)
deriving DecidableEq, Repr

/-- Modelled from the spec: the table store, with the append-only
revision stream tagged by entry id, the current-state projection table,
and the next fresh revision id. -/
structure TableStore where
  revisions : List (String × Revision)
  current : List CurrentRow
  next_rev : Nat
deriving DecidableEq, Repr

/-- The empty table store. -/
def emptyStore : TableStore := ⟨[], [], 0⟩

/-- First current-state row with the given entry id. -/
def findRow : List CurrentRow → String → Option CurrentRow
  | [], _ => none
  | r :: t, eid => if r.entry_id = eid then some r else findRow t eid

/-- Whether the current-state table has a row for the given entry. -/
def rowsHave : List CurrentRow → String → Bool
  | [], _ => false
  | r :: t, eid => if r.entry_id = eid then true else rowsHave t eid

/-- Modelled from the spec: read_current returns the current-state row
of an entry. -/
def read_current (st : TableStore) (eid : String) : Option CurrentRow :=
  findRow st.current eid

/-- The current head revision pointer of an entry, read off the
current-state projection. -/
def headRevision (st : TableStore) (eid : String) : Option Nat :=
  (read_current st eid).map (fun r => r.head_revision_id)

/-- Outcome of append_revision: the new revision, or a conflict
carrying the current head revision pointer. -/
inductive AppendOutcome where
  | ok (r : Revision)
  | conflictError (current_head : Option Nat)
deriving DecidableEq, Repr

/-- Update of the current-state projection to a new head revision:
replace the row of the entry, or insert one when absent. -/
def setCurrent (rows : List CurrentRow) (eid : String) (r : Revision) : List CurrentRow :=
  if rowsHave rows eid = true then
    rows.map (fun q => if q.entry_id = eid then ⟨eid, r.rev_id, r.field_values⟩ else q)
  else rows ++ [⟨eid, r.rev_id, r.field_values⟩]

/-- Modelled from the spec: append_revision compares the supplied
parent_revision_id against the current head of the entry; on mismatch it
returns ConflictError carrying the current head and leaves the store
unchanged; on match it appends a new Revision and updates the
current-state projection in the same logical operation. -/
def append_revision (st : TableStore) (eid : String)
    (fields : List (String × String)) (parent : Option Nat) :
    TableStore × AppendOutcome :=
  if parent = headRevision st eid then
    (⟨st.revisions ++ [(eid, ⟨st.next_rev, parent, fields⟩)],
      setCurrent st.current eid ⟨st.next_rev, parent, fields⟩,
      st.next_rev + 1⟩,
     .ok ⟨st.next_rev, parent, fields⟩)
  else (st, .conflictError (headRevision st eid))

/-- The latest appended revision with the given entry id in a revision
stream. -/
def latestRevOf (revs : List (String × Revision)) (eid : String) : Option Revision :=
  ((revs.filter (fun p => p.1 = eid)).getLast?).map (fun p => p.2)

/-- The latest appended revision of an entry in the table store. -/
def latestRevision (st : TableStore) (eid : String) : Option Revision :=
  latestRevOf st.revisions eid

lemma findRow_setCurrent_self (rows : List CurrentRow) (eid : String) (r : Revision) :
    findRow (setCurrent rows eid r) eid = some ⟨eid, r.rev_id, r.field_values⟩ := by
  unfold setCurrent
  split
  · rename_i hpos
    induction rows with
    | nil => simp [rowsHave] at hpos
    | cons a t ih =>
      by_cases ha : a.entry_id = eid
      · simp only [List.map_cons, if_pos ha]
        unfold findRow
        rw [if_pos rfl]
      · simp only [List.map_cons, if_neg ha]
        unfold findRow
        rw [if_neg ha]
        refine ih ?_
        unfold rowsHave at hpos
        rwa [if_neg ha] at hpos
  · induction rows with
    | nil =>
      show findRow [⟨eid, r.rev_id, r.field_values⟩] eid = some ⟨eid, r.rev_id, r.field_values⟩
      unfold findRow
      rw [if_pos rfl]
    | cons a t ih =>
      rename_i hneg
      have ha : ¬ a.entry_id = eid := by
        intro h
        exact hneg (by unfold rowsHave; rw [if_pos h])
      simp only [List.cons_append]
      unfold findRow
      rw [if_neg ha]
      refine ih ?_
      intro h2
      refine hneg ?_
      unfold rowsHave
      rw [if_neg ha]
      exact h2

lemma findRow_setCurrent_other (rows : List CurrentRow) (eid e2 : String)
    (r : Revision) (hne : e2 ≠ eid) :
    findRow (setCurrent rows eid r) e2 = findRow rows e2 := by
  unfold setCurrent
  split
  all_goals rename_i hsplit
  all_goals clear hsplit
  · induction rows with
    | nil => rfl
    | cons a t ih =>
      by_cases ha : a.entry_id = eid
      · have ha2 : ¬ a.entry_id = e2 := fun h => hne (h.symm.trans ha)
        simp only [List.map_cons, if_pos ha]
        unfold findRow
        rw [if_neg (fun h : eid = e2 => hne h.symm), if_neg ha2, ih]
      · simp only [List.map_cons, if_neg ha]
        unfold findRow
        by_cases ha2 : a.entry_id = e2
        · rw [if_pos ha2, if_pos ha2]
        · rw [if_neg ha2, if_neg ha2, ih]
  · induction rows with
    | nil =>
      show findRow [⟨eid, r.rev_id, r.field_values⟩] e2 = findRow [] e2
      unfold findRow
      rw [if_neg (fun h : eid = e2 => hne h.symm)]
      rfl
    | cons a t ih =>
      simp only [List.cons_append]
      unfold findRow
      by_cases ha2 : a.entry_id = e2
      · rw [if_pos ha2, if_pos ha2]
      · rw [if_neg ha2, if_neg ha2, ih]

/-- C1: append_revision with a stale parent revision returns
ConflictError carrying the current head revision and leaves the store
unchanged; with the matching parent it appends a new Revision whose
parent pointer is the old head and updates the current-state projection
to it in the same operation, so the head pointer advances to the new
revision and is never silently overwritten. -/
theorem c1_append_revision_conflict_or_advance (st : TableStore) (eid : String)
    (fields : List (String × String)) (parent : Option Nat) :
    (parent ≠ headRevision st eid →
      append_revision st eid fields parent = (st, .conflictError (headRevision st eid)))
    ∧ (parent = headRevision st eid →
      (append_revision st eid fields parent).2 = .ok ⟨st.next_rev, parent, fields⟩
      ∧ (append_revision st eid fields parent).1.revisions
          = st.revisions ++ [(eid, ⟨st.next_rev, parent, fields⟩)]
      ∧ headRevision (append_revision st eid fields parent).1 eid = some st.next_rev
      ∧ read_current (append_revision st eid fields parent).1 eid
          = some ⟨eid, st.next_rev, fields⟩) := by
  constructor
  · intro hne
    unfold append_revision
    rw [if_neg hne]
  · intro heq
    have hE : append_revision st eid fields parent =
        (⟨st.revisions ++ [(eid, ⟨st.next_rev, parent, fields⟩)],
          setCurrent st.current eid ⟨st.next_rev, parent, fields⟩,
          st.next_rev + 1⟩,
         .ok ⟨st.next_rev, parent, fields⟩) := by
      unfold append_revision
      rw [if_pos heq]
    rw [hE]
    refine ⟨rfl, rfl, ?_, ?_⟩
    · unfold headRevision read_current
      simp only
      rw [findRow_setCurrent_self]
      rfl
    · unfold read_current
      simp only
      rw [findRow_setCurrent_self]

/-- Concrete instantiation of the C1 theorem: a conflicting append with
a phantom parent on the empty store, and a matching append. -/
theorem c1_append_revision_witness :
    append_revision emptyStore ("e1") [(("title"), ("t"))] (some 7)
      = (emptyStore, .conflictError none)
    ∧ (append_revision emptyStore ("e1") [(("title"), ("t"))] none).2
      = .ok ⟨0, none, [(("title"), ("t"))]⟩ :=
  ⟨by
    have h := (c1_append_revision_conflict_or_advance emptyStore ("e1")
      [(("title"), ("t"))] (some 7)).1 (by decide)
    simpa using h,
   ((c1_append_revision_conflict_or_advance emptyStore ("e1")
      [(("title"), ("t"))] none).2 rfl).1⟩

/-- Modelled from the spec: one write operation against the table
store, used to close the store under arbitrary operation sequences. -/
inductive StoreOp where
  | append (eid : String) (fields : List (String × String)) (parent : Option Nat)
deriving Repr

/-- The store state after one operation; a conflicting append leaves
the state unchanged. -/
def applyStoreOp (st : TableStore) : StoreOp → TableStore
  | .append eid fields parent => (append_revision st eid fields parent).1

/-- The store state after a sequence of operations on the empty
store. -/
def applyStoreOps (ops : List StoreOp) : TableStore :=
  ops.foldl applyStoreOp emptyStore

/-- The current-state table is the projection of the latest appended
revision of every entry. -/
def StoreInv (st : TableStore) : Prop :=
  ∀ eid, read_current st eid
    = (latestRevision st eid).map (fun r => (⟨eid, r.rev_id, r.field_values⟩ : CurrentRow))

lemma latestRevOf_append_self (revs : List (String × Revision)) (eid : String) (r : Revision) :
    latestRevOf (revs ++ [(eid, r)]) eid = some r := by
  unfold latestRevOf
  rw [List.filter_append]
  simp

lemma latestRevOf_append_other (revs : List (String × Revision)) (eid e2 : String)
    (r : Revision) (hne : e2 ≠ eid) :
    latestRevOf (revs ++ [(eid, r)]) e2 = latestRevOf revs e2 := by
  unfold latestRevOf
  rw [List.filter_append]
  have hd : decide ((eid, r).1 = e2) = false :=
    decide_eq_false (fun h => hne h.symm)
  have h2 : ([(eid, r)].filter (fun p => decide (p.1 = e2))) = [] := by
    simp [List.filter, hd]
  rw [h2, List.append_nil]

lemma storeInv_empty : StoreInv emptyStore := by
  intro eid
  rfl

lemma storeInv_step (st : TableStore) (hInv : StoreInv st) (op : StoreOp) :
    StoreInv (applyStoreOp st op) := by
  cases op with
  | append eid fields parent =>
    simp only [applyStoreOp, append_revision]
    by_cases hp : parent = headRevision st eid
    · rw [if_pos hp]
      intro e2
      by_cases he : e2 = eid
      · subst he
        unfold read_current latestRevision
        simp only
        rw [findRow_setCurrent_self, latestRevOf_append_self]
        rfl
      · unfold read_current latestRevision
        simp only
        rw [findRow_setCurrent_other _ _ _ _ he, latestRevOf_append_other _ _ _ _ he]
        exact hInv e2
    · rw [if_neg hp]
      exact hInv

lemma storeInv_applyOps : ∀ (ops : List StoreOp) (st : TableStore),
    StoreInv st → StoreInv (ops.foldl applyStoreOp st)
  | [], _, h => h
  | op :: rest, st, h =>
    storeInv_applyOps rest (applyStoreOp st op) (storeInv_step st h op)

/-- C2: after any sequence of append_revision operations on the empty
store, for every entry with at least one appended revision read_current
returns exactly the field values and head pointer of the latest
appended Revision, never those of an older revision. -/
theorem c2_read_current_is_latest_revision (ops : List StoreOp) (eid : String)
    (r : Revision) (h : latestRevision (applyStoreOps ops) eid = some r) :
    read_current (applyStoreOps ops) eid = some ⟨eid, r.rev_id, r.field_values⟩ := by
  have hInv := storeInv_applyOps ops emptyStore storeInv_empty
  have h2 := hInv eid
  unfold applyStoreOps at h ⊢
  rw [h] at h2
  exact h2

/-- Concrete instantiation of the C2 theorem: two successful appends to
one entry; the current state carries the fields of the second revision. -/
theorem c2_read_current_is_latest_revision_witness :
    latestRevision (applyStoreOps
        [.append ("e") [(("t"), ("a"))] none, .append ("e") [(("t"), ("b"))] (some 0)]) ("e")
      = some ⟨1, some 0, [(("t"), ("b"))]⟩
    ∧ read_current (applyStoreOps
        [.append ("e") [(("t"), ("a"))] none, .append ("e") [(("t"), ("b"))] (some 0)]) ("e")
      = some ⟨("e"), 1, [(("t"), ("b"))]⟩ :=
  ⟨by decide,
   c2_read_current_is_latest_revision
     [.append ("e") [(("t"), ("a"))] none, .append ("e") [(("t"), ("b"))] (some 0)]
     ("e") ⟨1, some 0, [(("t"), ("b"))]⟩ (by decide)⟩

/-! Part II.b: query/session engine (data-model document, SQL Sessions
and Paging & Count sections). -/

/-- Modelled from the spec: a table row visible to the query engine,
with the mandatory unique id column and further named integer
columns. -/
structure Row where
  id : Nat
  cols : List (String × Int)
deriving DecidableEq, Repr

/-- Value of a named column in the column list, first match. -/
def colValue : List (String × Int) → String → Int
  | [], _ => 0
  | p :: t, c => if p.1 = c then p.2 else colValue t c

/-- The value of a named column of a row; id is the unique
tie-breaker column. -/
def rowValue (r : Row) (c : String) : Int :=
  if c = ("id") then (r.id : Int) else colValue r.cols c

/-- Modelled from the spec: the stored, parsed query intent of a
session — a conjunctive equality filter and the order_by column
list of the pagination contract. -/
structure QuerySpec where
  wherePairs : List (String × Int)
  order_by : List String
deriving DecidableEq, Repr

/-- Whether a row satisfies every equality constraint of the query. -/
def rowMatches (w : List (String × Int)) (r : Row) : Bool :=
  w.all (fun p => decide (rowValue r p.1 = p.2))

/-- Sort key of a row along the order_by columns. -/
def keyOf (order : List String) (r : Row) : List Int :=
  order.map (fun c => rowValue r c)

/-- Lexicographic comparison of sort keys. -/
def leKeys : List Int → List Int → Bool
  | [], _ => true
  | _ :: _, [] => true
  | a :: as, b :: bs => if a < b then true else if b < a then false else leKeys as bs

/-- Row ordering along the order_by columns. -/
def rowLE (order : List String) (r1 r2 : Row) : Bool :=
  leKeys (keyOf order r1) (keyOf order r2)

/-- Insertion into a sorted row list. -/
def insertRow (le : Row → Row → Bool) (r : Row) : List Row → List Row
  | [] => [r]
  | a :: t => if le r a = true then r :: a :: t else a :: insertRow le r t

/-- Insertion sort of rows. -/
def sortRows (le : Row → Row → Bool) : List Row → List Row
  | [] => []
  | a :: t => insertRow le a (sortRows le t)

/-- Modelled from the spec: query execution against the current table
state — filter the current rows, then sort by the order_by contract. -/
def executeQuery (q : QuerySpec) (table : List Row) : List Row :=
  sortRows (rowLE q.order_by) (table.filter (rowMatches q.wherePairs))

/-- Modelled from the spec: session metadata only — the stored query
intent and the expiry timestamp; no result rows are stored. -/
structure SessionMeta where
  query : QuerySpec
  expires_at : Nat
deriving DecidableEq, Repr

/-- Session time-to-live (target of about ten minutes, in seconds). -/
def sessionTTL : Nat := 600

/-- Result of session creation. -/
inductive CreateSessionResult where
  | ok (sid : String)
  | rejected
deriving DecidableEq, Repr

/-- Whether the order_by contract includes the unique id
tie-breaker column. -/
def hasTieBreaker (order : List String) : Bool := order.contains ("id")

/-- Modelled from the spec: create_session stores only the parsed
intent and the pagination contract, and rejects an order_by without a
unique tie-breaker at creation time. -/
def create_session (store : List (String × SessionMeta)) (sid : String)
    (q : QuerySpec) (now : Nat) : (List (String × SessionMeta)) × CreateSessionResult :=
  if hasTieBreaker q.order_by = true then
    (store ++ [(sid, ⟨q, now + sessionTTL⟩)], .ok sid)
  else (store, .rejected)

/-- Session metadata lookup in durable storage. -/
def findSession : List (String × SessionMeta) → String → Option SessionMeta
  | [], _ => none
  | p :: t, sid => if p.1 = sid then some p.2 else findSession t sid

/-- Modelled from the spec: get_rows re-executes the stored query
against the live table state on every call and applies offset and
limit; an expired or unknown session yields no page. -/
def get_rows (store : List (String × SessionMeta)) (table : List Row)
    (sid : String) (off lim now : Nat) : Option (List Row) :=
  match findSession store sid with
  | none => none
  | some s =>
    if now < s.expires_at then some (((executeQuery s.query table).drop off).take lim)
    else none

/-- Modelled from the spec: get_count re-executes the stored query
against the live table state on every call. -/
def get_count (store : List (String × SessionMeta)) (table : List Row)
    (sid : String) (now : Nat) : Option Nat :=
  match findSession store sid with
  | none => none
  | some s =>
    if now < s.expires_at then some (executeQuery s.query table).length
    else none

lemma get_rows_eval (store : List (String × SessionMeta)) (sid : String)
    (s : SessionMeta) (table : List Row) (off lim now : Nat)
    (hs : findSession store sid = some s) (hexp : now < s.expires_at) :
    get_rows store table sid off lim now
      = some (((executeQuery s.query table).drop off).take lim) := by
  unfold get_rows
  simp only [hs]
  rw [if_pos hexp]

lemma get_count_eval (store : List (String × SessionMeta)) (sid : String)
    (s : SessionMeta) (table : List Row) (now : Nat)
    (hs : findSession store sid = some s) (hexp : now < s.expires_at) :
    get_count store table sid now = some (executeQuery s.query table).length := by
  unfold get_count
  simp only [hs]
  rw [if_pos hexp]

/-- C3: before the expiry of the session, get_rows and get_count are
computed by re-executing the stored query against the table state
passed at the time of the call — the session metadata holds no result
rows — so a call made after a committed write observes the written
table state, and any server process reading the same stored session
metadata returns the same result for the same call and table state. -/
theorem c3_sessions_reexecute_stored_query (store store2 : List (String × SessionMeta))
    (sid : String) (s : SessionMeta) (table : List Row) (off lim now : Nat)
    (hs : findSession store sid = some s) (hexp : now < s.expires_at) :
    get_rows store table sid off lim now
      = some (((executeQuery s.query table).drop off).take lim)
    ∧ get_count store table sid now = some (executeQuery s.query table).length
    ∧ (findSession store2 sid = some s →
        get_rows store2 table sid off lim now = get_rows store table sid off lim now
        ∧ get_count store2 table sid now = get_count store table sid now) := by
  refine ⟨get_rows_eval store sid s table off lim now hs hexp,
    get_count_eval store sid s table now hs hexp, ?_⟩
  intro hs2
  constructor
  · rw [get_rows_eval store sid s table off lim now hs hexp,
      get_rows_eval store2 sid s table off lim now hs2 hexp]
  · rw [get_count_eval store sid s table now hs hexp,
      get_count_eval store2 sid s table now hs2 hexp]

/-- Concrete instantiation of the C3 theorem: the same session served
from two copies of the metadata store observes a newly written row. -/
theorem c3_sessions_reexecute_stored_query_witness :
    get_rows [(("s1"), ⟨⟨[], [("id")]⟩, 600⟩)]
        [⟨1, []⟩, ⟨2, []⟩] ("s1") 0 10 5
      = some [⟨1, []⟩, ⟨2, []⟩]
    ∧ get_count [(("s1"), ⟨⟨[], [("id")]⟩, 600⟩)] [⟨1, []⟩, ⟨2, []⟩] ("s1") 5
      = some 2 :=
  ⟨by
    have h := (c3_sessions_reexecute_stored_query
      [(("s1"), ⟨⟨[], [("id")]⟩, 600⟩)] [] ("s1") ⟨⟨[], [("id")]⟩, 600⟩
      [⟨1, []⟩, ⟨2, []⟩] 0 10 5 (by decide) (by decide)).1
    rw [h]
    decide,
   by
    have h := (c3_sessions_reexecute_stored_query
      [(("s1"), ⟨⟨[], [("id")]⟩, 600⟩)] [] ("s1") ⟨⟨[], [("id")]⟩, 600⟩
      [⟨1, []⟩, ⟨2, []⟩] 0 10 5 (by decide) (by decide)).2.1
    rw [h]
    decide⟩

/-- C4: for a fixed table state and a session whose order_by includes
the unique id tie-breaker, the two pages get_rows(0, N) and
get_rows(N, N) concatenate to exactly the single page
get_rows(0, 2N) — no duplicate and no missing row — and create_session
rejects at creation time any query whose order_by lacks a unique
tie-breaker. -/
theorem c4_paging_determinism (store : List (String × SessionMeta))
    (sid : String) (s : SessionMeta) (table : List Row) (N now : Nat)
    (hs : findSession store sid = some s)
    (_htie : hasTieBreaker s.query.order_by = true)
    (hexp : now < s.expires_at) :
    (∃ l1 l2 l12,
      get_rows store table sid 0 N now = some l1
      ∧ get_rows store table sid N N now = some l2
      ∧ get_rows store table sid 0 (2 * N) now = some l12
      ∧ l1 ++ l2 = l12)
    ∧ (∀ (store0 : List (String × SessionMeta)) (sid0 : String) (q : QuerySpec) (now0 : Nat),
        hasTieBreaker q.order_by = false →
        create_session store0 sid0 q now0 = (store0, .rejected)) := by
  constructor
  · have hres := get_rows_eval store sid s table 0 N now hs hexp
    have hres2 := get_rows_eval store sid s table N N now hs hexp
    have hres3 := get_rows_eval store sid s table 0 (2 * N) now hs hexp
    refine ⟨_, _, _, hres, hres2, hres3, ?_⟩
    rw [two_mul, List.take_add]
    simp
  · intro store0 sid0 q now0 h
    unfold create_session
    rw [if_neg (by simp [h])]

/-- Concrete instantiation of the C4 theorem: pages of size one over a
three-row table, and rejection of a session without the id
tie-breaker. -/
theorem c4_paging_determinism_witness :
    (∃ l1 l2 l12,
      get_rows [(("s1"), ⟨⟨[], [("id")]⟩, 600⟩)] [⟨3, []⟩, ⟨1, []⟩, ⟨2, []⟩] ("s1") 0 1 5 = some l1
      ∧ get_rows [(("s1"), ⟨⟨[], [("id")]⟩, 600⟩)] [⟨3, []⟩, ⟨1, []⟩, ⟨2, []⟩] ("s1") 1 1 5 = some l2
      ∧ get_rows [(("s1"), ⟨⟨[], [("id")]⟩, 600⟩)] [⟨3, []⟩, ⟨1, []⟩, ⟨2, []⟩] ("s1") 0 (2 * 1) 5 = some l12
      ∧ l1 ++ l2 = l12)
    ∧ create_session [] ("s2") ⟨[], [("updated_at")]⟩ 0 = ([], .rejected) :=
  ⟨(c4_paging_determinism [(("s1"), ⟨⟨[], [("id")]⟩, 600⟩)] ("s1") ⟨⟨[], [("id")]⟩, 600⟩
      [⟨3, []⟩, ⟨1, []⟩, ⟨2, []⟩] 1 5 (by decide) (by decide) (by decide)).1,
   (c4_paging_determinism [(("s1"), ⟨⟨[], [("id")]⟩, 600⟩)] ("s1") ⟨⟨[], [("id")]⟩, 600⟩
      [⟨3, []⟩, ⟨1, []⟩, ⟨2, []⟩] 1 5 (by decide) (by decide) (by decide)).2
     [] ("s2") ⟨[], [("updated_at")]⟩ 0 (by decide)⟩

/-! Part II.c: audit ledger (security design document, Audit Logging
section). -/

/-- Modelled from the spec: an audit event, with the canonical
serialization of its payload modelled as a natural number, the hash of
the previous event, and the stored event hash; the ledger
implementation is not in the checked sources. -/
structure AuditEvent where
  canonical : Nat
  prev_hash : Nat
  event_hash : Nat
deriving DecidableEq, Repr

/-- Modelled from the spec: the hash H over the canonical payload and
the previous hash, modelled as the injective pairing of the two
inputs. -/
def auditHash (c prev : Nat) : Nat := Nat.pair c prev

/-- The fixed genesis value of the hash chain. -/
def genesisHash : Nat := 0

/-- The hash of the previously appended event, or the genesis value for
an empty ledger. -/
def headHash (chain : List AuditEvent) : Nat :=
  match chain.getLast? with
  | some e => e.event_hash
  | none => genesisHash

/-- Modelled from the spec: append computes the event hash from the
canonical payload and the previous hash, then appends. -/
def appendAudit (chain : List AuditEvent) (c : Nat) : List AuditEvent :=
  chain ++ [⟨c, headHash chain, auditHash c (headHash chain)⟩]

/-- The ledger built by appending a sequence of canonical payloads to
the empty ledger. -/
def chainOf (cs : List Nat) : List AuditEvent :=
  cs.foldl appendAudit []

/-- Sequential verification: recompute each event hash from the
canonical payload and the running previous hash and compare it with the
stored event hash; the result is the relative index of the first
disagreement, or none when the chain is valid. -/
def verifyFrom (prev : Nat) : List AuditEvent → Option Nat
  | [] => none
  | e :: rest =>
    if e.event_hash = auditHash e.canonical prev then
      (verifyFrom (auditHash e.canonical prev) rest).map (fun k => k + 1)
    else some 0

/-- Modelled from the spec: verify_chain recomputes the hashes
sequentially from the genesis value. -/
def verify_chain (chain : List AuditEvent) : Option Nat :=
  verifyFrom genesisHash chain

/-- The recomputed hash sequence of a stored chain. -/
def expectedHashes (prev : Nat) : List AuditEvent → List Nat
  | [] => []
  | e :: rest => auditHash e.canonical prev :: expectedHashes (auditHash e.canonical prev) rest

/-- The recomputed hash sequence of a payload sequence. -/
def expectedOf (prev : Nat) : List Nat → List Nat
  | [] => []
  | c :: rest => auditHash c prev :: expectedOf (auditHash c prev) rest

/-- The running previous-hash value after recomputing a chain. -/
def runPrev (prev : Nat) (chain : List AuditEvent) : Nat :=
  chain.foldl (fun p e => auditHash e.canonical p) prev

lemma verifyFrom_none_iff : ∀ (chain : List AuditEvent) (prev : Nat),
    verifyFrom prev chain = none
      ↔ chain.map (fun e => e.event_hash) = expectedHashes prev chain
  | [], prev => by simp [verifyFrom, expectedHashes]
  | e :: rest, prev => by
    simp only [verifyFrom, expectedHashes, List.map_cons]
    by_cases h : e.event_hash = auditHash e.canonical prev
    · rw [if_pos h, Option.map_eq_none']
      rw [verifyFrom_none_iff rest (auditHash e.canonical prev)]
      constructor
      · intro h2
        rw [h, h2]
      · intro h2
        exact (List.cons_eq_cons.mp h2).2
    · rw [if_neg h]
      constructor
      · intro h2
        exact absurd h2 (by simp)
      · intro h2
        exact absurd (List.cons_eq_cons.mp h2).1 h

lemma verifyFrom_some_first : ∀ (chain : List AuditEvent) (prev k : Nat),
    verifyFrom prev chain = some k →
    (chain.map (fun e => e.event_hash)).take k = (expectedHashes prev chain).take k
    ∧ (chain.map (fun e => e.event_hash)).get? k ≠ (expectedHashes prev chain).get? k
  | [], prev, k, h => by simp [verifyFrom] at h
  | e :: rest, prev, k, h => by
    simp only [verifyFrom] at h
    by_cases he : e.event_hash = auditHash e.canonical prev
    · rw [if_pos he] at h
      rcases Option.map_eq_some'.mp h with ⟨k2, hk2, hke⟩
      rcases verifyFrom_some_first rest (auditHash e.canonical prev) k2 hk2 with ⟨h1, h2⟩
      subst hke
      constructor
      · simp only [expectedHashes, List.map_cons, List.take_succ_cons]
        rw [he, h1]
      · simp only [expectedHashes, List.map_cons, List.get?_cons_succ]
        exact h2
    · rw [if_neg he] at h
      have hk : k = 0 := (Option.some.inj h).symm
      subst hk
      constructor
      · simp
      · simp only [expectedHashes, List.map_cons, List.get?_cons_zero]
        intro h2
        exact he (Option.some.inj h2)

lemma verifyFrom_append_none (l1 : List AuditEvent) :
    ∀ (prev : Nat) (l2 : List AuditEvent),
    verifyFrom prev l1 = none → verifyFrom (runPrev prev l1) l2 = none →
    verifyFrom prev (l1 ++ l2) = none := by
  induction l1 with
  | nil =>
    intro prev l2 _ h2
    simpa [runPrev] using h2
  | cons e rest ih =>
    intro prev l2 h1 h2
    simp only [verifyFrom] at h1
    by_cases he : e.event_hash = auditHash e.canonical prev
    · rw [if_pos he, Option.map_eq_none'] at h1
      have hrun : runPrev prev (e :: rest) = runPrev (auditHash e.canonical prev) rest := by
        simp [runPrev]
      rw [hrun] at h2
      have hrec := ih (auditHash e.canonical prev) l2 h1 h2
      show verifyFrom prev (e :: (rest ++ l2)) = none
      simp only [verifyFrom]
      rw [if_pos he, Option.map_eq_none']
      exact hrec
    · rw [if_neg he] at h1
      exact absurd h1 (by simp)

lemma chainOf_invariant : ∀ (cs : List Nat) (chain : List AuditEvent),
    verifyFrom genesisHash chain = none →
    runPrev genesisHash chain = headHash chain →
    verifyFrom genesisHash (cs.foldl appendAudit chain) = none
    ∧ runPrev genesisHash (cs.foldl appendAudit chain)
        = headHash (cs.foldl appendAudit chain)
  | [], chain, h1, h2 => ⟨h1, h2⟩
  | c :: rest, chain, h1, h2 => by
    have hnew : verifyFrom genesisHash (appendAudit chain c) = none := by
      refine verifyFrom_append_none chain genesisHash _ h1 ?_
      rw [h2]
      unfold verifyFrom
      rw [if_pos rfl]
      rfl
    have hrun : runPrev genesisHash (appendAudit chain c) = headHash (appendAudit chain c) := by
      unfold appendAudit runPrev
      rw [List.foldl_append]
      have hh : headHash (chain ++ [⟨c, headHash chain, auditHash c (headHash chain)⟩])
          = auditHash c (headHash chain) := by
        unfold headHash
        rw [List.getLast?_concat]
      rw [hh]
      show auditHash c (runPrev genesisHash chain) = auditHash c (headHash chain)
      rw [h2]
    exact chainOf_invariant rest (appendAudit chain c) hnew hrun

lemma expectedHashes_by_canonicals : ∀ (chain : List AuditEvent) (prev : Nat),
    expectedHashes prev chain = expectedOf prev (chain.map (fun e => e.canonical))
  | [], _ => rfl
  | e :: rest, prev => by
    unfold expectedHashes expectedOf
    simp only [List.map_cons]
    rw [expectedHashes_by_canonicals rest (auditHash e.canonical prev)]

lemma chainOf_canonicals : ∀ (cs : List Nat) (chain : List AuditEvent),
    (cs.foldl appendAudit chain).map (fun e => e.canonical)
      = chain.map (fun e => e.canonical) ++ cs
  | [], chain => by simp
  | c :: rest, chain => by
    simp only [List.foldl_cons]
    rw [chainOf_canonicals rest (appendAudit chain c)]
    unfold appendAudit
    simp

/-- C5: the ledger built by appends verifies as valid; verify_chain
returns valid exactly when every stored event hash equals the hash
recomputed from the canonical payload and the running previous hash
starting at the fixed genesis value; otherwise it returns the index of
the first event whose stored hash disagrees with the recomputed one;
and a chain that verifies as valid carries exactly the hashes that the
honest appends of its payload sequence produce, so tampering with a
stored hash or payload, or reordering distinct payloads, is detected. -/
theorem c5_audit_chain (cs : List Nat) :
    verify_chain (chainOf cs) = none
    ∧ (∀ chain : List AuditEvent,
        verify_chain chain = none
          ↔ chain.map (fun e => e.event_hash) = expectedHashes genesisHash chain)
    ∧ (∀ (chain : List AuditEvent) (k : Nat), verify_chain chain = some k →
        (chain.map (fun e => e.event_hash)).take k
            = (expectedHashes genesisHash chain).take k
        ∧ (chain.map (fun e => e.event_hash)).get? k
            ≠ (expectedHashes genesisHash chain).get? k)
    ∧ (∀ chain2 : List AuditEvent, verify_chain chain2 = none →
        chain2.map (fun e => e.canonical) = cs →
        chain2.map (fun e => e.event_hash) = (chainOf cs).map (fun e => e.event_hash)) := by
  have hvalid : verify_chain (chainOf cs) = none :=
    (chainOf_invariant cs [] rfl rfl).1
  refine ⟨hvalid, ?_, ?_, ?_⟩
  · intro chain
    exact verifyFrom_none_iff chain genesisHash
  · intro chain k h
    exact verifyFrom_some_first chain genesisHash k h
  · intro chain2 h2 hcan
    have he2 : chain2.map (fun e => e.event_hash) = expectedOf genesisHash cs := by
      rw [(verifyFrom_none_iff chain2 genesisHash).mp h2,
        expectedHashes_by_canonicals chain2 genesisHash, hcan]
    have he1 : (chainOf cs).map (fun e => e.event_hash) = expectedOf genesisHash cs := by
      rw [(verifyFrom_none_iff (chainOf cs) genesisHash).mp hvalid,
        expectedHashes_by_canonicals (chainOf cs) genesisHash]
      have := chainOf_canonicals cs []
      unfold chainOf
      rw [this]
      rfl
    rw [he2, he1]

/-- Concrete instantiation of the C5 theorem: the honest two-event
ledger verifies; tampering with the first stored event hash is reported
at index zero. -/
theorem c5_audit_chain_witness :
    verify_chain (chainOf [4, 7]) = none
    ∧ ((([⟨4, 0, 21⟩, ⟨7, 20, 407⟩] : List AuditEvent).map (fun e => e.event_hash)).take 0
        = (expectedHashes genesisHash [⟨4, 0, 21⟩, ⟨7, 20, 407⟩]).take 0
      ∧ (([⟨4, 0, 21⟩, ⟨7, 20, 407⟩] : List AuditEvent).map (fun e => e.event_hash)).get? 0
        ≠ (expectedHashes genesisHash [⟨4, 0, 21⟩, ⟨7, 20, 407⟩]).get? 0) :=
  ⟨(c5_audit_chain [4, 7]).1,
   (c5_audit_chain [4, 7]).2.2.1 [⟨4, 0, 21⟩, ⟨7, 20, 407⟩] 0 (by decide)⟩

/-! Part II.d: membership engine (security design document, membership
lifecycle; exercised by e2e/space-membership.test.ts). -/

/-- Modelled from the spec: the lifecycle state of a space member. -/
inductive MemberState where
  | invited
  | active
  | revoked
deriving DecidableEq, Repr

/-- Modelled from the spec: a single-use opaque invitation token with
an expiry and a consumed flag. -/
structure Invitation where
  token : String
  user_id : String
  consumed : Bool
  expires_at : Nat
deriving DecidableEq, Repr

/-- Modelled from the spec: the membership set of one space — member
states by user id plus the issued invitations. -/
structure Membership where
  members : List (String × MemberState)
  invitations : List Invitation
deriving DecidableEq, Repr

/-- The recorded state of a user in the membership set. -/
def memberState : List (String × MemberState) → String → Option MemberState
  | [], _ => none
  | p :: t, u => if p.1 = u then some p.2 else memberState t u

/-- Whether a user appears in the membership set. -/
def memberKnown : List (String × MemberState) → String → Bool
  | [], _ => false
  | p :: t, u => if p.1 = u then true else memberKnown t u

/-- First invitation carrying the given token. -/
def findInvitation : List Invitation → String → Option Invitation
  | [], _ => none
  | i :: t, tok => if i.token = tok then some i else findInvitation t tok

/-- Modelled from the spec: invite records the user as invited when not
yet a member and issues a fresh unconsumed token with an expiry. -/
def invite (ms : Membership) (u tok : String) (expiry : Nat) : Membership :=
  ⟨if memberKnown ms.members u = true then ms.members else ms.members ++ [(u, .invited)],
   ⟨tok, u, false, expiry⟩ :: ms.invitations⟩

/-- Mark every invitation carrying the token as consumed. -/
def consumeToken (invs : List Invitation) (tok : String) : List Invitation :=
  invs.map (fun i => if i.token = tok then ⟨i.token, i.user_id, true, i.expires_at⟩ else i)

/-- Set a user active in the membership set, inserting when absent. -/
def setActive (members : List (String × MemberState)) (u : String) :
    List (String × MemberState) :=
  if memberKnown members u = true then
    members.map (fun p => if p.1 = u then (u, .active) else p)
  else members ++ [(u, .active)]

/-- Outcome of accepting an invitation token. -/
inductive AcceptResult where
  | ok
  | invalidToken
deriving DecidableEq, Repr

/-- Modelled from the spec: accept consumes a valid token and activates
the invited user; acceptance for an already-active member is a no-op
success; an unknown, consumed or expired token fails with InvalidToken
and leaves the membership set unchanged. -/
def accept (ms : Membership) (tok : String) (now : Nat) : Membership × AcceptResult :=
  match findInvitation ms.invitations tok with
  | none => (ms, .invalidToken)
  | some inv =>
    if inv.consumed = true ∨ inv.expires_at ≤ now then (ms, .invalidToken)
    else if memberState ms.members inv.user_id = some .active then
      (⟨ms.members, consumeToken ms.invitations tok⟩, .ok)
    else
      (⟨setActive ms.members inv.user_id, consumeToken ms.invitations tok⟩, .ok)

lemma memberState_setActive_self (members : List (String × MemberState)) (u : String) :
    memberState (setActive members u) u = some .active := by
  unfold setActive
  split
  · rename_i hpos
    induction members with
    | nil => simp [memberKnown] at hpos
    | cons a t ih =>
      by_cases ha : a.1 = u
      · simp only [List.map_cons, if_pos ha]
        unfold memberState
        rw [if_pos rfl]
      · simp only [List.map_cons, if_neg ha]
        unfold memberState
        rw [if_neg ha]
        refine ih ?_
        unfold memberKnown at hpos
        rwa [if_neg ha] at hpos
  · induction members with
    | nil =>
      show memberState [(u, .active)] u = some .active
      unfold memberState
      rw [if_pos rfl]
    | cons a t ih =>
      rename_i hneg
      have ha : ¬ a.1 = u := by
        intro h
        exact hneg (by unfold memberKnown; rw [if_pos h])
      simp only [List.cons_append]
      unfold memberState
      rw [if_neg ha]
      refine ih ?_
      intro h2
      refine hneg ?_
      unfold memberKnown
      rw [if_neg ha]
      exact h2

lemma findInvitation_consumeToken (invs : List Invitation) (tok : String) :
    findInvitation (consumeToken invs tok) tok
      = (findInvitation invs tok).map
          (fun i => ⟨i.token, i.user_id, true, i.expires_at⟩) := by
  induction invs with
  | nil => rfl
  | cons a t ih =>
    by_cases ha : a.token = tok
    · simp [consumeToken, findInvitation, ha]
    · simp only [consumeToken, List.map_cons, if_neg ha]
      unfold findInvitation
      rw [if_neg ha, if_neg ha]
      exact ih

lemma accept_of_invalid (ms : Membership) (tok : String) (now : Nat) (inv : Invitation)
    (hfind : findInvitation ms.invitations tok = some inv)
    (hbad : inv.consumed = true ∨ inv.expires_at ≤ now) :
    accept ms tok now = (ms, .invalidToken) := by
  simp only [accept, hfind]
  rw [if_pos hbad]

lemma accept_ok_state (ms : Membership) (tok : String) (now : Nat)
    (hok : (accept ms tok now).2 = .ok) :
    ∃ inv, findInvitation ms.invitations tok = some inv
      ∧ inv.consumed = false ∧ now < inv.expires_at
      ∧ (accept ms tok now).1.invitations = consumeToken ms.invitations tok := by
  cases hfind : findInvitation ms.invitations tok with
  | none =>
    rw [show accept ms tok now = (ms, .invalidToken) by simp only [accept, hfind]] at hok
    exact absurd hok (by simp)
  | some inv =>
    by_cases hbad : inv.consumed = true ∨ inv.expires_at ≤ now
    · rw [accept_of_invalid ms tok now inv hfind hbad] at hok
      exact absurd hok (by simp)
    · push_neg at hbad
      refine ⟨inv, rfl, by simpa using hbad.1, by omega, ?_⟩
      simp only [accept, hfind]
      rw [if_neg (by push_neg; exact ⟨by simpa using hbad.1, by omega⟩)]
      split <;> rfl

/-- C6: a freshly issued invitation token is accepted once, activating
the invited user; acceptance with a valid token for an already-active
member is a no-op success, not an error; an unknown, consumed or
expired token fails with InvalidToken and leaves the membership set
unchanged; and after a successful acceptance the token is consumed, so
its second use fails with InvalidToken and changes nothing. -/
theorem c6_invitation_lifecycle :
    (∀ (ms : Membership) (u tok : String) (exp now : Nat), now < exp →
      (accept (invite ms u tok exp) tok now).2 = .ok
      ∧ memberState (accept (invite ms u tok exp) tok now).1.members u = some .active)
    ∧ (∀ (ms : Membership) (tok : String) (now : Nat) (inv : Invitation),
        findInvitation ms.invitations tok = some inv →
        inv.consumed = false → now < inv.expires_at →
        memberState ms.members inv.user_id = some .active →
        accept ms tok now = (⟨ms.members, consumeToken ms.invitations tok⟩, .ok))
    ∧ (∀ (ms : Membership) (tok : String) (now : Nat) (inv : Invitation),
        findInvitation ms.invitations tok = some inv →
        (inv.consumed = true ∨ inv.expires_at ≤ now) →
        accept ms tok now = (ms, .invalidToken))
    ∧ (∀ (ms : Membership) (tok : String) (now : Nat),
        findInvitation ms.invitations tok = none →
        accept ms tok now = (ms, .invalidToken))
    ∧ (∀ (ms : Membership) (tok : String) (now now2 : Nat),
        (accept ms tok now).2 = .ok →
        accept (accept ms tok now).1 tok now2 = ((accept ms tok now).1, .invalidToken)) := by
  refine ⟨?_, ?_, ?_, ?_, ?_⟩
  · intro ms u tok exp now hnow
    have hfind : findInvitation (invite ms u tok exp).invitations tok
        = some ⟨tok, u, false, exp⟩ := by
      simp [invite, findInvitation]
    have hcond : ¬ ((false : Bool) = true ∨ exp ≤ now) := by
      push_neg
      exact ⟨by simp, by omega⟩
    constructor
    · simp only [accept, hfind]
      rw [if_neg hcond]
      split <;> rfl
    · simp only [accept, hfind]
      rw [if_neg hcond]
      by_cases hact : memberState (invite ms u tok exp).members u = some .active
      · rw [if_pos hact]
        exact hact
      · rw [if_neg hact]
        exact memberState_setActive_self _ u
  · intro ms tok now inv hfind hcons hexp hact
    simp only [accept, hfind]
    rw [if_neg (by push_neg; exact ⟨by simp [hcons], by omega⟩), if_pos hact]
  · intro ms tok now inv hfind hbad
    exact accept_of_invalid ms tok now inv hfind hbad
  · intro ms tok now hfind
    simp only [accept, hfind]
  · intro ms tok now now2 hok
    rcases accept_ok_state ms tok now hok with ⟨inv, hfind, _, _, hinvs⟩
    have hfind2 : findInvitation (accept ms tok now).1.invitations tok
        = some ⟨inv.token, inv.user_id, true, inv.expires_at⟩ := by
      rw [hinvs, findInvitation_consumeToken, hfind]
      rfl
    refine accept_of_invalid _ tok now2 _ hfind2 ?_
    left
    rfl

/-- Concrete instantiation of the C6 theorem: invite bob, accept the
token once successfully, and fail the second use of the token. -/
theorem c6_invitation_lifecycle_witness :
    (accept (invite ⟨[], []⟩ ("bob") ("T") 100) ("T") 5).2 = .ok
    ∧ memberState (accept (invite ⟨[], []⟩ ("bob") ("T") 100) ("T") 5).1.members ("bob")
        = some .active
    ∧ accept (accept (invite ⟨[], []⟩ ("bob") ("T") 100) ("T") 5).1 ("T") 6
        = ((accept (invite ⟨[], []⟩ ("bob") ("T") 100) ("T") 5).1, .invalidToken) :=
  ⟨(c6_invitation_lifecycle.1 ⟨[], []⟩ ("bob") ("T") 100 5 (by decide)).1,
   (c6_invitation_lifecycle.1 ⟨[], []⟩ ("bob") ("T") 100 5 (by decide)).2,
   c6_invitation_lifecycle.2.2.2.2 (invite ⟨[], []⟩ ("bob") ("T") 100) ("T") 5 6
     (c6_invitation_lifecycle.1 ⟨[], []⟩ ("bob") ("T") 100 5 (by decide)).1⟩

/-! Part II.e: schema registry (data-model document, Metadata vs
Content Columns and Metadata Forms sections). -/

/-- The reserved metadata column names of the data-model document,
compared case-insensitively. -/
def reservedMetadataColumns : List String :=
  ["id", "entry_id", "title", "form", "tags", "links", "assets",
   "created_at", "updated_at", "revision_id", "parent_revision_id",
   "deleted", "deleted_at", "author", "updated_by", "integrity",
   "space_id", "word_count"]

/-- The reserved system Form names of the data-model document, compared
case-insensitively. -/
def reservedFormNames : List String := ["sql", "user", "usergroup"]

/-- Modelled from the spec: one field definition of a Form. -/
structure FieldDef where
  name : String
  ftype : String
  required : Bool
deriving DecidableEq, Repr

/-- Modelled from the spec: a Form definition submitted for
registration. -/
structure FormDef where
  name : String
  fields : List FieldDef
deriving DecidableEq, Repr

/-- Modelled from the spec: the schema registry of one space. -/
structure Registry where
  forms : List FormDef
deriving DecidableEq, Repr

/-- Outcome of define_form. -/
inductive DefineFormResult where
  | ok
  | validationError
deriving DecidableEq, Repr

/-- Whether a field name collides case-insensitively with a reserved
metadata column name. -/
def fieldNameReserved (f : FieldDef) : Bool :=
  reservedMetadataColumns.contains (lowerStr f.name)

/-- Modelled from the spec: define_form rejects, at registration time,
a Form whose name matches a reserved system Form name or one of whose
field names matches a reserved metadata column name, both
case-insensitively; nothing is registered on rejection. -/
def define_form (reg : Registry) (d : FormDef) : Registry × DefineFormResult :=
  if reservedFormNames.contains (lowerStr d.name) = true
      ∨ d.fields.any fieldNameReserved = true then
    (reg, .validationError)
  else (⟨reg.forms ++ [d]⟩, .ok)

/-- C7: defining a Form with a field named entry_id in any case, or
more generally any field colliding case-insensitively with a reserved
metadata column name, or a Form whose name matches a reserved system
Form name case-insensitively, fails with ValidationError at
schema-registration time and registers nothing. -/
theorem c7_define_form_reserved_names (reg : Registry) (d : FormDef) :
    ((∃ f, f ∈ d.fields ∧ lowerStr f.name = ("entry_id")) →
      define_form reg d = (reg, .validationError))
    ∧ ((∃ f, f ∈ d.fields ∧ reservedMetadataColumns.contains (lowerStr f.name) = true) →
      define_form reg d = (reg, .validationError))
    ∧ (reservedFormNames.contains (lowerStr d.name) = true →
      define_form reg d = (reg, .validationError)) := by
  have hfield : (∃ f, f ∈ d.fields ∧ reservedMetadataColumns.contains (lowerStr f.name) = true) →
      define_form reg d = (reg, .validationError) := by
    intro h
    rcases h with ⟨f, hf, hres⟩
    unfold define_form
    rw [if_pos (Or.inr (List.any_eq_true.mpr ⟨f, hf, hres⟩))]
  refine ⟨?_, hfield, ?_⟩
  · intro h
    rcases h with ⟨f, hf, hres⟩
    refine hfield ⟨f, hf, ?_⟩
    rw [hres]
    decide
  · intro h
    unfold define_form
    rw [if_pos (Or.inl h)]

/-- Concrete instantiation of the C7 theorem: a field named Entry_ID
and a Form named USER are both rejected. -/
theorem c7_define_form_reserved_names_witness :
    define_form ⟨[]⟩ ⟨("Notes"), [⟨("Entry_ID"), ("string"), true⟩]⟩
      = (⟨[]⟩, .validationError)
    ∧ define_form ⟨[]⟩ ⟨("USER"), []⟩ = (⟨[]⟩, .validationError) :=
  ⟨(c7_define_form_reserved_names ⟨[]⟩ ⟨("Notes"), [⟨("Entry_ID"), ("string"), true⟩]⟩).1
     ⟨⟨("Entry_ID"), ("string"), true⟩, by decide, by decide⟩,
   (c7_define_form_reserved_names ⟨[]⟩ ⟨("USER"), []⟩).2.2 (by decide)⟩

/-! Part II.f: materialized-view synchronizer (data-model document,
Materialized Views section). -/

/-- Number of records with the given key. -/
def countKey : List (String × String) → String → Nat
  | [], _ => 0
  | p :: t, k => if p.1 = k then countKey t k + 1 else countKey t k

/-- Whether a record with the given key exists. -/
def hasKey : List (String × String) → String → Bool
  | [], _ => false
  | p :: t, k => if p.1 = k then true else hasKey t k

/-- Replace the payload of every record with the given key. -/
def setKey (l : List (String × String)) (k v : String) : List (String × String) :=
  l.map (fun p => if p.1 = k then (k, v) else p)

/-- Remove every record with the given key. -/
def removeKey : List (String × String) → String → List (String × String)
  | [], _ => []
  | p :: t, k => if p.1 = k then removeKey t k else p :: removeKey t k

/-- Modelled from the spec: the saved-query table and the materialized
view metadata directory of one space. -/
structure MVState where
  savedQueries : List (String × String)
  viewMeta : List (String × String)
deriving DecidableEq, Repr

/-- Modelled from the spec: one SavedQuery lifecycle operation. -/
inductive SavedQueryOp where
  | create (id sql : String)
  | update (id sql : String)
  | delete (id : String)
deriving Repr

/-- Modelled from the spec: each SavedQuery write performs the matching
MaterializedViewMeta write in the same logical unit of work — creation
creates the metadata record, update refreshes it, deletion deletes
it. -/
def applyMVOp (st : MVState) : SavedQueryOp → MVState
  | .create id sql =>
    if hasKey st.savedQueries id = true then st
    else ⟨st.savedQueries ++ [(id, sql)], st.viewMeta ++ [(id, sql)]⟩
  | .update id sql =>
    if hasKey st.savedQueries id = true then
      ⟨setKey st.savedQueries id sql, setKey st.viewMeta id sql⟩
    else st
  | .delete id => ⟨removeKey st.savedQueries id, removeKey st.viewMeta id⟩

lemma countKey_append (l : List (String × String)) (x : String × String) (k : String) :
    countKey (l ++ [x]) k = countKey l k + (if x.1 = k then 1 else 0) := by
  induction l with
  | nil =>
    by_cases hx : x.1 = k
    · simp [countKey, hx]
    · simp [countKey, hx]
  | cons a t ih =>
    simp only [List.cons_append]
    unfold countKey
    by_cases ha : a.1 = k
    · rw [if_pos ha, if_pos ha, ih]
      omega
    · rw [if_neg ha, if_neg ha, ih]

lemma countKey_setKey (l : List (String × String)) (id v k : String) :
    countKey (setKey l id v) k = countKey l k := by
  induction l with
  | nil => rfl
  | cons a t ih =>
    simp only [setKey, List.map_cons]
    by_cases ha : a.1 = id
    · rw [if_pos ha]
      unfold countKey
      by_cases hk : id = k
      · rw [if_pos hk, if_pos (ha.trans hk)]
        rw [show setKey t id v = List.map (fun p => if p.1 = id then (id, v) else p) t from rfl] at ih
        rw [ih]
      · rw [if_neg hk, if_neg (fun h2 : a.1 = k => hk (ha.symm.trans h2))]
        rw [show setKey t id v = List.map (fun p => if p.1 = id then (id, v) else p) t from rfl] at ih
        rw [ih]
    · rw [if_neg ha]
      unfold countKey
      rw [show setKey t id v = List.map (fun p => if p.1 = id then (id, v) else p) t from rfl] at ih
      by_cases hk : a.1 = k
      · rw [if_pos hk, if_pos hk, ih]
      · rw [if_neg hk, if_neg hk, ih]

lemma countKey_removeKey_self (l : List (String × String)) (id : String) :
    countKey (removeKey l id) id = 0 := by
  induction l with
  | nil => rfl
  | cons a t ih =>
    simp only [removeKey]
    by_cases ha : a.1 = id
    · rw [if_pos ha]
      exact ih
    · rw [if_neg ha]
      simp only [countKey]
      rw [if_neg ha]
      exact ih

lemma countKey_removeKey_other (l : List (String × String)) (id k : String)
    (hk : k ≠ id) : countKey (removeKey l id) k = countKey l k := by
  induction l with
  | nil => rfl
  | cons a t ih =>
    simp only [removeKey]
    by_cases ha : a.1 = id
    · have hak : ¬ a.1 = k := fun h => hk (h.symm.trans ha)
      rw [if_pos ha, ih]
      simp only [countKey]
      rw [if_neg hak]
    · rw [if_neg ha]
      simp only [countKey]
      by_cases hak : a.1 = k
      · rw [if_pos hak, if_pos hak, ih]
      · rw [if_neg hak, if_neg hak, ih]

lemma countKey_zero_of_not_hasKey (l : List (String × String)) (k : String)
    (h : hasKey l k = false) : countKey l k = 0 := by
  induction l with
  | nil => rfl
  | cons a t ih =>
    have ha : ¬ a.1 = k := by
      intro h2
      unfold hasKey at h
      rw [if_pos h2] at h
      exact Bool.true_eq_false.mp h
    have ht : hasKey t k = false := by
      unfold hasKey at h
      rwa [if_neg ha] at h
    unfold countKey
    rw [if_neg ha]
    exact ih ht

/-- The two record sets stay in lockstep: equal multiplicity per key,
at most one record per key. -/
def MVInv (st : MVState) : Prop :=
  ∀ id, countKey st.viewMeta id = countKey st.savedQueries id
    ∧ countKey st.savedQueries id ≤ 1

lemma mvInv_step (st : MVState) (hInv : MVInv st) (op : SavedQueryOp) :
    MVInv (applyMVOp st op) := by
  cases op with
  | create id sql =>
    simp only [applyMVOp]
    split
    · exact hInv
    · rename_i hfresh
      intro k
      have hz : countKey st.savedQueries id = 0 :=
        countKey_zero_of_not_hasKey _ _ (by
          cases hx : hasKey st.savedQueries id
          · rfl
          · exact absurd hx hfresh)
      rcases hInv k with ⟨h1, h2⟩
      simp only
      rw [countKey_append, countKey_append]
      by_cases hk : id = k
      · subst hk
        have hc : (if (id, sql).1 = id then 1 else 0) = 1 := by simp
        rw [hc]
        omega
      · have hc : (if (id, sql).1 = k then 1 else 0) = 0 := by simp [hk]
        rw [hc]
        omega
  | update id sql =>
    simp only [applyMVOp]
    split
    · intro k
      simp only
      rw [countKey_setKey, countKey_setKey]
      exact hInv k
    · exact hInv
  | delete id =>
    simp only [applyMVOp]
    intro k
    simp only
    by_cases hk : k = id
    · subst hk
      rw [countKey_removeKey_self, countKey_removeKey_self]
      omega
    · rw [countKey_removeKey_other _ _ _ hk, countKey_removeKey_other _ _ _ hk]
      exact hInv k

lemma mvInv_fold : ∀ (ops : List SavedQueryOp) (st : MVState),
    MVInv st → MVInv (ops.foldl applyMVOp st)
  | [], _, h => h
  | op :: rest, st, h => mvInv_fold rest (applyMVOp st op) (mvInv_step st h op)

/-- C8: after every sequence of SavedQuery create, update and delete
operations there is exactly one MaterializedViewMeta record per
existing SavedQuery and none for a deleted one: the per-key record
counts of the two sets are always equal and never exceed one, because
each operation performs both writes in the same logical unit of
work. -/
theorem c8_view_meta_lockstep (ops : List SavedQueryOp) (id : String) :
    countKey (ops.foldl applyMVOp ⟨[], []⟩).viewMeta id
      = countKey (ops.foldl applyMVOp ⟨[], []⟩).savedQueries id
    ∧ countKey (ops.foldl applyMVOp ⟨[], []⟩).savedQueries id ≤ 1 :=
  mvInv_fold ops ⟨[], []⟩ (fun _ => ⟨rfl, by simp [countKey]⟩) id
